import Mathlib

/-!
Verification of the `multiswap` constant-product AMM pool (`src/multiswap/src/pool.rs`).

Shallow embedding conventions:
* Rust `u128` balances and all `U256` intermediates are modelled as `Nat`,
  with every overflow that is reachable at `u128`-ranged inputs modelled by
  an explicit bound check:
  - the quote numerator `amount_with_fee * out_balance` can exceed `2^256`
    for valid `u128` inputs (the `uint` crate's `Mul` panics on overflow),
    modelled by an explicit `2^256` bound check in `Pool.get_return_idx`;
  - `fair_supply.as_u128()` in `add_liquidity` panics when the minted share
    count does not fit `u128`, modelled by an explicit `2^128` bound check;
  - the checked `u128` additions `self.amounts[i] += amount` (proportional
    loop of `add_liquidity`), `self.shares_total_supply += shares`,
    `prev_value + value` inside `add_to_collection`, and
    `self.amounts[in_idx] += amount_in` in `swap` are modelled by explicit
    `2^128` bound checks (`errAddOverflow`) placed in source order.
  The remaining multiplications (`amounts[i] * total`, `reserves[i] * shares`,
  `reserves[i] * fair_supply` with `fair_supply` bounded by a per-token
  candidate) cannot overflow `U256` for `u128`-ranged operands, the other
  `as_u128` downcasts are bounded by a reserve or an input amount, and the
  bootstrap `reserves[i] += amounts[i]` starts from all-zero reserves in
  every reachable bootstrap state; they are modelled exactly.
* Rust panics (`assert!`, `expect`, index out of bounds, division by zero,
  checked subtraction underflow) are modelled by `Except.error`: a failing call
  produces an error and no state, matching the transactional semantics of the
  host (a panic aborts the call and no mutation is committed).
  `removeLiquidityTrace` additionally models `remove_liquidity` at the level of
  the in-memory struct, returning the partially mutated state present at the
  moment the panic fires; this distinguishes "check before mutation" from
  "mutation rolled back by the aborting transaction".
* `LookupMap<AccountId, Nat>` is modelled as an association list with
  first-occurrence `get`/`insert`/`remove`; all states built by the operations
  keep keys distinct.
* The `ft_transfer` cross-contract call issued by `swap` is fire-and-forget
  and does not affect the pool state; it is not modelled.
-/

abbrev AccountId := String

def FEE_DIVISOR : Nat := 1000

def MAX_NUM_TOKENS : Nat := 10

def INIT_SHARES_SUPPLY : Nat := 1000000000000000000000

/-- Value of `U256::max_value()`, the seed of the running minimum in `add_liquidity`. -/
def U256_MAX : Nat := 2 ^ 256 - 1

/-- Distinct panic causes of the Rust code, named after the panic messages. -/
inductive PoolError where
  /-- Panic `ERR_WRONG_TOKEN_COUNT` -/
  | errWrongTokenCount
  /-- Panic `ERR_AMOUNT_ZERO` -/
  | errAmountZero
  /-- Panic `ERR_NO_SHARES` -/
  | errNoShares
  /-- Panic `ERR_NOT_ENOUGH_SHARES` -/
  | errNotEnoughShares
  /-- Panic `ERR_MIN_AMOUNT` -/
  | errMinAmount
  /-- Panic `ERR_MISSING_TOKEN` -/
  | errMissingToken
  /-- Panic `ERR_INVALID` -/
  | errInvalid
  /-- Panic `ERR_FEE_TOO_LARGE` -/
  | errFeeTooLarge
  /-- Panic `ERR_TOO_MANY_TOKENS` -/
  | errTooManyTokens
  /-- Panic of the `uint` crate on division by zero -/
  | errDivisionByZero
  /-- Panic on a `Vec` index out of bounds -/
  | errIndexOutOfBounds
  /-- Panic on checked `u128`/`u32` subtraction underflow -/
  | errSubUnderflow
  /-- Panic of the `uint` crate on `U256` multiplication overflow -/
  | errArithOverflow
  /-- Panic of `as_u128`: value does not fit in 128 bits -/
  | errU128Overflow
  /-- Panic on a checked `u128` addition overflow (`+=` under overflow checks) -/
  | errAddOverflow
  deriving DecidableEq

/-- First-occurrence lookup in the association-list model of `LookupMap`. -/
def lmGet (m : List (AccountId × Nat)) (k : AccountId) : Option Nat :=
  match m with
  | [] => none
  | (k', v) :: rest => if k' = k then some v else lmGet rest k

/-- Replace the value at the first occurrence of `k`, or append a new entry. -/
def lmInsert (m : List (AccountId × Nat)) (k : AccountId) (v : Nat) :
    List (AccountId × Nat) :=
  match m with
  | [] => [(k, v)]
  | (k', v') :: rest =>
      if k' = k then (k, v) :: rest else (k', v') :: lmInsert rest k v

/-- Remove the first occurrence of `k`. -/
def lmRemove (m : List (AccountId × Nat)) (k : AccountId) :
    List (AccountId × Nat) :=
  match m with
  | [] => []
  | (k', v') :: rest => if k' = k then rest else (k', v') :: lmRemove rest k

/-- Function `add_to_collection` from `utils.rs`/`pool.rs`.  The `u128`
overflow of `prev_value + value` is modelled by an explicit `2^128` bound
check at each call site (`errAddOverflow`), placed where the Rust addition
executes. -/
def add_to_collection (c : List (AccountId × Nat)) (key : AccountId)
    (amount : Nat) : List (AccountId × Nat) :=
  lmInsert c key ((lmGet c key).getD 0 + amount)

/-- Sum of all balances stored in the shares map. -/
def sharesSum (m : List (AccountId × Nat)) : Nat :=
  (m.map Prod.snd).sum

/-- The `Pool` struct of `pool.rs`. -/
structure Pool where
  token_account_ids : List AccountId
  amounts : List Nat
  fee : Nat
  shares : List (AccountId × Nat)
  shares_total_supply : Nat
  deriving DecidableEq

/-- Constructor `Pool::new` (the storage-prefix id plays no role in the model). -/
def Pool.new (token_account_ids : List AccountId) (fee : Nat) :
    Except PoolError Pool :=
  if FEE_DIVISOR ≤ fee then .error .errFeeTooLarge
  else if MAX_NUM_TOKENS ≤ token_account_ids.length then .error .errTooManyTokens
  else .ok { token_account_ids := token_account_ids,
             amounts := List.replicate token_account_ids.length 0,
             fee := fee, shares := [], shares_total_supply := 0 }

/-- First loop of the proportional branch of `add_liquidity`: asserts each input
amount positive and folds the running minimum of the per-token candidates
`amounts[i] * total / reserves[i]`.  The loop ranges over the token indices; the
input list has the tokens' length (checked by the caller) and the reserve list
is accessed positionally (`errIndexOutOfBounds` models the `Vec` panic,
`errDivisionByZero` the `U256` division panic for a zero reserve). -/
def alFairLoop (inAmts reserves : List Nat) (total acc : Nat) :
    Except PoolError Nat :=
  match inAmts with
  | [] => .ok acc
  | a :: as' =>
      if a = 0 then .error .errAmountZero
      else
        match reserves with
        | [] => .error .errIndexOutOfBounds
        | r :: rs =>
            if r = 0 then .error .errDivisionByZero
            else alFairLoop as' rs total (min acc (a * total / r))

/-- Second loop of the proportional branch: each reserve is incremented by
`reserves[i] * fair_supply / total` over the token indices (driven here by the
input-amount list, which has the tokens' length); reserves past the token count
are untouched.  The checked `u128` addition `self.amounts[i] += amount`
overflows when the new reserve reaches `2^128`, modelled by `errAddOverflow`
(the `U256` multiply/divide and the `as_u128` downcast of `amount` are exact
for `u128`-ranged operands, see the header). -/
def alAddLoop (inAmts reserves : List Nat) (fair total : Nat) :
    Except PoolError (List Nat) :=
  match inAmts, reserves with
  | _ :: as', r :: rs =>
      if 2 ^ 128 ≤ r + r * fair / total then .error .errAddOverflow
      else
        match alAddLoop as' rs fair total with
        | .error e => .error e
        | .ok t => .ok ((r + r * fair / total) :: t)
  | _, rest => .ok rest

/-- Bootstrap loop of `add_liquidity`: `reserves[i] += amounts[i]`. -/
def alBootLoop (inAmts reserves : List Nat) : Except PoolError (List Nat) :=
  match inAmts, reserves with
  | [], rest => .ok rest
  | _ :: _, [] => .error .errIndexOutOfBounds
  | a :: as', r :: rs =>
      match alBootLoop as' rs with
      | .error e => .error e
      | .ok t => .ok ((r + a) :: t)

/-- Method `Pool::add_liquidity`.  Checked `u128` additions are modelled by
explicit `2^128` bound checks in source order: the per-reserve `+=` inside the
proportional loop (in `alAddLoop`), the `fair_supply.as_u128()` downcast, then
`self.shares_total_supply += shares`, then the provider-balance addition
inside `add_to_collection`. -/
def Pool.add_liquidity (p : Pool) (sender_id : AccountId)
    (amounts : List Nat) : Except PoolError (Pool × Nat) :=
  if amounts.length ≠ p.token_account_ids.length then .error .errWrongTokenCount
  else if 0 < p.shares_total_supply then
    match alFairLoop amounts p.amounts p.shares_total_supply U256_MAX with
    | .error e => .error e
    | .ok fair =>
        match alAddLoop amounts p.amounts fair p.shares_total_supply with
        | .error e => .error e
        | .ok newAmounts =>
            if 2 ^ 128 ≤ fair then .error .errU128Overflow
            else if 2 ^ 128 ≤ p.shares_total_supply + fair then
              .error .errAddOverflow
            else if 2 ^ 128 ≤ (lmGet p.shares sender_id).getD 0 + fair then
              .error .errAddOverflow
            else
              .ok ({ p with
                     amounts := newAmounts,
                     shares := add_to_collection p.shares sender_id fair,
                     shares_total_supply := p.shares_total_supply + fair },
                   fair)
  else
    match alBootLoop amounts p.amounts with
    | .error e => .error e
    | .ok newAmounts =>
        if 2 ^ 128 ≤ p.shares_total_supply + INIT_SHARES_SUPPLY then
          .error .errAddOverflow
        else if 2 ^ 128 ≤ (lmGet p.shares sender_id).getD 0 +
            INIT_SHARES_SUPPLY then
          .error .errAddOverflow
        else
          .ok ({ p with
                 amounts := newAmounts,
                 shares := add_to_collection p.shares sender_id INIT_SHARES_SUPPLY,
                 shares_total_supply :=
                   p.shares_total_supply + INIT_SHARES_SUPPLY },
               INIT_SHARES_SUPPLY)

/-- Loop of `remove_liquidity` over the token indices: computes
`amount = reserves[i] * shares / total`, asserts `amount >= min_amounts[i]`,
decrements the reserve and records the payout.  Returns the new reserve list and
the payout list.  Error order follows the source: reserve access, division by
`total`, `min_amounts` access, `ERR_MIN_AMOUNT`, checked subtraction. -/
def rlLoop (toks : List AccountId) (reserves mins : List Nat)
    (shares total : Nat) : Except PoolError (List Nat × List Nat) :=
  match toks with
  | [] => .ok (reserves, [])
  | _ :: ts =>
      match reserves with
      | [] => .error .errIndexOutOfBounds
      | a :: as' =>
          if total = 0 then .error .errDivisionByZero
          else
            match mins with
            | [] => .error .errIndexOutOfBounds
            | m :: ms =>
                let amt := a * shares / total
                if amt < m then .error .errMinAmount
                else if a < amt then .error .errSubUnderflow
                else
                  match rlLoop ts as' ms shares total with
                  | .error e => .error e
                  | .ok (ra, rr) => .ok ((a - amt) :: ra, amt :: rr)

/-- Method `Pool::remove_liquidity` (transactional view: an error commits no state). -/
def Pool.remove_liquidity (p : Pool) (sender_id : AccountId) (shares : Nat)
    (min_amounts : List Nat) : Except PoolError (Pool × List Nat) :=
  match lmGet p.shares sender_id with
  | none => .error .errNoShares
  | some prev =>
      if prev < shares then .error .errNotEnoughShares
      else
        match rlLoop p.token_account_ids p.amounts min_amounts shares
            p.shares_total_supply with
        | .error e => .error e
        | .ok (newAmounts, result) =>
            if p.shares_total_supply < shares then .error .errSubUnderflow
            else
              .ok ({ p with
                     amounts := newAmounts,
                     shares := if prev = shares then lmRemove p.shares sender_id
                               else lmInsert p.shares sender_id (prev - shares),
                     shares_total_supply := p.shares_total_supply - shares },
                   result)

/-- Loop of `remove_liquidity` at the level of the in-memory struct: returns the
panic (if any) together with the reserve list as it stands when the panic fires
(earlier indices already decremented). -/
def rlLoopTrace (toks : List AccountId) (reserves mins : List Nat)
    (shares total : Nat) : Option PoolError × List Nat × List Nat :=
  match toks with
  | [] => (none, reserves, [])
  | _ :: ts =>
      match reserves with
      | [] => (some .errIndexOutOfBounds, [], [])
      | a :: as' =>
          if total = 0 then (some .errDivisionByZero, a :: as', [])
          else
            match mins with
            | [] => (some .errIndexOutOfBounds, a :: as', [])
            | m :: ms =>
                let amt := a * shares / total
                if amt < m then (some .errMinAmount, a :: as', [])
                else if a < amt then (some .errSubUnderflow, a :: as', [])
                else
                  match rlLoopTrace ts as' ms shares total with
                  | (e, ra, rr) => (e, (a - amt) :: ra, amt :: rr)

/-- Method `Pool::remove_liquidity` at the level of the in-memory struct: the returned
pool is the state present at the moment a panic fires (or the final state when
no panic fires).  Mutation order follows the source: per-token reserve
decrements inside the loop, then the shares-map update, then the total-supply
decrement. -/
def removeLiquidityTrace (p : Pool) (sender_id : AccountId) (shares : Nat)
    (min_amounts : List Nat) : Option PoolError × Pool :=
  match lmGet p.shares sender_id with
  | none => (some .errNoShares, p)
  | some prev =>
      if prev < shares then (some .errNotEnoughShares, p)
      else
        match rlLoopTrace p.token_account_ids p.amounts min_amounts shares
            p.shares_total_supply with
        | (some e, newAmounts, _) => (some e, { p with amounts := newAmounts })
        | (none, newAmounts, _) =>
            let newShares := if prev = shares then lmRemove p.shares sender_id
                             else lmInsert p.shares sender_id (prev - shares)
            if p.shares_total_supply < shares then
              (some .errSubUnderflow,
               { p with amounts := newAmounts, shares := newShares })
            else
              (none, { p with amounts := newAmounts, shares := newShares,
                              shares_total_supply :=
                                p.shares_total_supply - shares })

/-- Search `iter().position(|id| id == token_id)` over the configured token list. -/
def tokenPosition : List AccountId → AccountId → Option Nat
  | [], _ => none
  | x :: xs, tid =>
      if x = tid then some 0 else (tokenPosition xs tid).map (· + 1)

/-- Method `Pool::token_index` (`iter().position(...)`, `ERR_MISSING_TOKEN`). -/
def Pool.token_index (p : Pool) (token_id : AccountId) : Except PoolError Nat :=
  match tokenPosition p.token_account_ids token_id with
  | some i => .ok i
  | none => .error .errMissingToken

/-- Method `Pool::get_return_idx`: the constant-product quote at token indices.
`errArithOverflow` models the `uint` panic when the 256-bit numerator
`amount_with_fee * out_balance` overflows; `errSubUnderflow` models the checked
`u32` subtraction `FEE_DIVISOR - fee` for an over-large fee. -/
def Pool.get_return_idx (p : Pool) (token_in : Nat) (amount_in : Nat)
    (token_out : Nat) : Except PoolError Nat :=
  match p.amounts.get? token_in with
  | none => .error .errIndexOutOfBounds
  | some in_balance =>
      match p.amounts.get? token_out with
      | none => .error .errIndexOutOfBounds
      | some out_balance =>
          if 0 < in_balance ∧ 0 < out_balance ∧ token_in ≠ token_out ∧
              0 < amount_in then
            if FEE_DIVISOR < p.fee then .error .errSubUnderflow
            else
              let amount_with_fee := amount_in * (FEE_DIVISOR - p.fee)
              if 2 ^ 256 ≤ amount_with_fee * out_balance then
                .error .errArithOverflow
              else
                .ok (amount_with_fee * out_balance /
                     (FEE_DIVISOR * in_balance + amount_with_fee))
          else .error .errInvalid

/-- Method `Pool::get_return` (the public quote, pure). -/
def Pool.get_return (p : Pool) (token_in : AccountId) (amount_in : Nat)
    (token_out : AccountId) : Except PoolError Nat :=
  match p.token_index token_in with
  | .error e => .error e
  | .ok i =>
      match p.token_index token_out with
      | .error e => .error e
      | .ok o => p.get_return_idx i amount_in o

/-- Method `Pool::swap`.  The outbound `ft_transfer` is fire-and-forget and does not
touch pool state; it is not modelled.  `errAddOverflow` models the checked
`u128` addition `self.amounts[in_idx] += amount_in` and `errSubUnderflow` the
checked `u128` subtraction of the out-reserve, in source order. -/
def Pool.swap (p : Pool) (sender_id : AccountId) (token_in : AccountId)
    (amount_in : Nat) (token_out : AccountId) (min_amount_out : Nat) :
    Except PoolError (Pool × Nat) :=
  match p.token_index token_in with
  | .error e => .error e
  | .ok in_idx =>
      match p.token_index token_out with
      | .error e => .error e
      | .ok out_idx =>
          match p.get_return_idx in_idx amount_in out_idx with
          | .error e => .error e
          | .ok amount_out =>
              if amount_out < min_amount_out then .error .errMinAmount
              else if 2 ^ 128 ≤ p.amounts.getD in_idx 0 + amount_in then
                .error .errAddOverflow
              else
                let a1 := p.amounts.set in_idx
                  (p.amounts.getD in_idx 0 + amount_in)
                if a1.getD out_idx 0 < amount_out then .error .errSubUnderflow
                else
                  .ok ({ p with amounts :=
                          a1.set out_idx (a1.getD out_idx 0 - amount_out) },
                       amount_out)

/-- The reserve held for a configured token (0 for an unconfigured one);
used only to state claims about `get_return`. -/
def reserve_of (p : Pool) (token_id : AccountId) : Nat :=
  match p.token_index token_id with
  | .ok i => p.amounts.getD i 0
  | .error _ => 0

/-- Pool states reachable from `Pool::new` by successful operations (failed
operations commit no state). -/
inductive Reachable : Pool → Prop where
  | new (toks : List AccountId) (fee : Nat) (p : Pool) :
      Pool.new toks fee = .ok p → Reachable p
  | add (p : Pool) (s : AccountId) (amts : List Nat) (p' : Pool) (n : Nat) :
      Reachable p → Pool.add_liquidity p s amts = .ok (p', n) → Reachable p'
  | remove (p : Pool) (s : AccountId) (sh : Nat) (mins : List Nat)
      (p' : Pool) (outs : List Nat) :
      Reachable p → Pool.remove_liquidity p s sh mins = .ok (p', outs) →
      Reachable p'
  | swap (p : Pool) (sender tin : AccountId) (ain : Nat) (tout : AccountId)
      (mo : Nat) (p' : Pool) (out : Nat) :
      Reachable p → Pool.swap p sender tin ain tout mo = .ok (p', out) →
      Reachable p'

/-! ### Association-list lemmas -/

theorem sharesSum_eq_remove_add (m : List (AccountId × Nat)) (k : AccountId) :
    sharesSum m = sharesSum (lmRemove m k) + (lmGet m k).getD 0 := by
  induction m with
  | nil => simp [sharesSum, lmRemove, lmGet]
  | cons kv rest ih =>
      obtain ⟨k', v⟩ := kv
      by_cases h : k' = k
      · simp [sharesSum, lmRemove, lmGet, h]
        omega
      · simp only [sharesSum, lmRemove, lmGet, if_neg h, List.map_cons,
          List.sum_cons] at ih ⊢
        omega

theorem sharesSum_insert (m : List (AccountId × Nat)) (k : AccountId)
    (v : Nat) :
    sharesSum (lmInsert m k v) = sharesSum (lmRemove m k) + v := by
  induction m with
  | nil => simp [sharesSum, lmInsert, lmRemove]
  | cons kv rest ih =>
      obtain ⟨k', v'⟩ := kv
      by_cases h : k' = k
      · simp [sharesSum, lmInsert, lmRemove, h]
        omega
      · simp only [sharesSum, lmInsert, lmRemove, if_neg h, List.map_cons,
          List.sum_cons] at ih ⊢
        omega

theorem lmGet_getD_le_sharesSum (m : List (AccountId × Nat)) (k : AccountId) :
    (lmGet m k).getD 0 ≤ sharesSum m := by
  rw [sharesSum_eq_remove_add m k]
  exact Nat.le_add_left _ _

theorem mem_of_mem_lmRemove {kv : AccountId × Nat}
    {m : List (AccountId × Nat)} {k : AccountId}
    (h : kv ∈ lmRemove m k) : kv ∈ m := by
  induction m with
  | nil => simp [lmRemove] at h
  | cons kv' rest ih =>
      obtain ⟨k', v'⟩ := kv'
      by_cases hk : k' = k
      · simp only [lmRemove, if_pos hk] at h
        exact List.mem_cons_of_mem _ h
      · simp only [lmRemove, if_neg hk] at h
        rcases List.mem_cons.mp h with h' | h'
        · exact h' ▸ List.mem_cons_self _ _
        · exact List.mem_cons_of_mem _ (ih h')

theorem sharesSum_add_to_collection (m : List (AccountId × Nat))
    (k : AccountId) (v : Nat) :
    sharesSum (add_to_collection m k v) = sharesSum m + v := by
  rw [add_to_collection, sharesSum_insert, sharesSum_eq_remove_add m k]
  omega

/-! ### `tokenPosition` / `token_index` lemmas -/

theorem tokenPosition_get {l : List AccountId} {tid : AccountId} {i : Nat}
    (h : tokenPosition l tid = some i) : l.get? i = some tid := by
  induction l generalizing i with
  | nil => simp [tokenPosition] at h
  | cons x xs ih =>
      by_cases hx : x = tid
      · simp [tokenPosition, hx] at h
        subst h
        simp [hx]
      · simp only [tokenPosition, if_neg hx] at h
        rcases hj : tokenPosition xs tid with _ | j
        · rw [hj] at h; simp at h
        · rw [hj] at h
          simp only [Option.map] at h
          injection h with h
          subst h
          simpa using ih hj

theorem tokenPosition_isSome_of_mem {l : List AccountId} {tid : AccountId}
    (h : tid ∈ l) : ∃ i, tokenPosition l tid = some i := by
  induction l with
  | nil => simp at h
  | cons x xs ih =>
      by_cases hx : x = tid
      · exact ⟨0, by simp [tokenPosition, hx]⟩
      · rcases List.mem_cons.mp h with h' | h'
        · exact absurd h'.symm hx
        · obtain ⟨j, hj⟩ := ih h'
          exact ⟨j + 1, by simp [tokenPosition, if_neg hx, hj]⟩

theorem tokenPosition_none_of_not_mem {l : List AccountId} {tid : AccountId}
    (h : tid ∉ l) : tokenPosition l tid = none := by
  induction l with
  | nil => rfl
  | cons x xs ih =>
      simp only [List.mem_cons, not_or] at h
      have hx : ¬x = tid := fun hx => h.1 hx.symm
      simp [tokenPosition, if_neg hx, ih h.2]

theorem token_index_ok_of_mem {p : Pool} {tid : AccountId} (h : tid ∈ p.token_account_ids) :
    ∃ i, p.token_index tid = .ok i := by
  obtain ⟨i, hi⟩ := tokenPosition_isSome_of_mem h
  exact ⟨i, by simp [Pool.token_index, hi]⟩

theorem token_index_error_of_not_mem {p : Pool} {tid : AccountId}
    (h : tid ∉ p.token_account_ids) : p.token_index tid = .error .errMissingToken := by
  simp [Pool.token_index, tokenPosition_none_of_not_mem h]

theorem token_index_ok_get {p : Pool} {tid : AccountId} {i : Nat}
    (h : p.token_index tid = .ok i) : p.token_account_ids.get? i = some tid := by
  rw [Pool.token_index] at h
  rcases hp : tokenPosition p.token_account_ids tid with _ | j
  · rw [hp] at h; exact absurd h (by simp)
  · rw [hp] at h
    simp only [Except.ok.injEq] at h
    exact h ▸ tokenPosition_get hp

theorem token_index_mem {p : Pool} {tid : AccountId} {i : Nat}
    (h : p.token_index tid = .ok i) : tid ∈ p.token_account_ids :=
  List.get?_mem (token_index_ok_get h)

theorem token_index_lt {p : Pool} {tid : AccountId} {i : Nat}
    (h : p.token_index tid = .ok i) : i < p.token_account_ids.length := by
  obtain ⟨hlt, -⟩ := List.get?_eq_some.mp (token_index_ok_get h)
  exact hlt

theorem token_index_inj {p : Pool} {tid tid' : AccountId} {i : Nat}
    (h : p.token_index tid = .ok i) (h' : p.token_index tid' = .ok i) :
    tid = tid' := by
  have := token_index_ok_get h
  have := token_index_ok_get h'
  simp_all

/-! ### Loop lemmas for `add_liquidity` -/

theorem alBootLoop_ok_length {as rs out : List Nat}
    (h : alBootLoop as rs = .ok out) : out.length = rs.length := by
  induction as generalizing rs out with
  | nil => simp only [alBootLoop] at h; cases h; rfl
  | cons a as' ih =>
      match rs with
      | [] => simp [alBootLoop] at h
      | r :: rs' =>
          simp only [alBootLoop] at h
          rcases ht : alBootLoop as' rs' with e | t
          · rw [ht] at h; cases h
          · rw [ht] at h
            cases h
            simp [ih ht]

theorem alBootLoop_zeros {as rs : List Nat}
    (hlen : as.length = rs.length) (hz : ∀ r ∈ rs, r = 0) :
    alBootLoop as rs = .ok as := by
  induction as generalizing rs with
  | nil =>
      match rs with
      | [] => rfl
      | r :: rs' => simp at hlen
  | cons a as' ih =>
      match rs with
      | [] => simp at hlen
      | r :: rs' =>
          have hr : r = 0 := hz r (List.mem_cons_self _ _)
          have hrec := ih (by simpa using hlen)
            (fun x hx => hz x (List.mem_cons_of_mem _ hx))
          simp [alBootLoop, hrec, hr]

theorem alAddLoop_ok_length {as rs out : List Nat} {f t : Nat}
    (h : alAddLoop as rs f t = .ok out) : out.length = rs.length := by
  induction as generalizing rs out with
  | nil => simp only [alAddLoop] at h; cases h; rfl
  | cons a as' ih =>
      match rs with
      | [] => simp only [alAddLoop] at h; cases h; rfl
      | r :: rs' =>
          simp only [alAddLoop] at h
          by_cases hov : 2 ^ 128 ≤ r + r * f / t
          · rw [if_pos hov] at h; cases h
          · rw [if_neg hov] at h
            rcases hrec : alAddLoop as' rs' f t with e | tl
            · rw [hrec] at h; cases h
            · rw [hrec] at h
              cases h
              simp [ih hrec]

theorem alAddLoop_map {as rs : List Nat} (f t : Nat)
    (hlen : as.length = rs.length)
    (hfit : ∀ r ∈ rs, r + r * f / t < 2 ^ 128) :
    alAddLoop as rs f t = .ok (rs.map (fun r => r + r * f / t)) := by
  induction as generalizing rs with
  | nil =>
      match rs with
      | [] => rfl
      | r :: rs' => simp at hlen
  | cons a as' ih =>
      match rs with
      | [] => simp at hlen
      | r :: rs' =>
          have h1 : r + r * f / t < 2 ^ 128 := hfit r (List.mem_cons_self _ _)
          have hrec := ih (by simpa using hlen)
            (fun x hx => hfit x (List.mem_cons_of_mem _ hx))
          simp only [alAddLoop]
          rw [if_neg (not_le.mpr h1), hrec]
          simp

theorem alFairLoop_fold {as rs : List Nat} {t : Nat} (acc : Nat)
    (hlen : as.length = rs.length) (hpos : ∀ a ∈ as, 0 < a)
    (hrpos : ∀ r ∈ rs, 0 < r) :
    alFairLoop as rs t acc =
      .ok ((List.zipWith (fun a r => a * t / r) as rs).foldl min acc) := by
  induction as generalizing rs acc with
  | nil =>
      match rs with
      | [] => rfl
      | r :: rs' => simp at hlen
  | cons a as' ih =>
      match rs with
      | [] => simp at hlen
      | r :: rs' =>
          have ha : a ≠ 0 :=
            Nat.pos_iff_ne_zero.mp (hpos a (List.mem_cons_self _ _))
          have hr : r ≠ 0 :=
            Nat.pos_iff_ne_zero.mp (hrpos r (List.mem_cons_self _ _))
          simp only [alFairLoop, if_neg ha, if_neg hr]
          rw [ih _ (by simpa using hlen)
            (fun x hx => hpos x (List.mem_cons_of_mem _ hx))
            (fun x hx => hrpos x (List.mem_cons_of_mem _ hx))]
          simp [List.foldl_cons]

theorem foldl_min_le (l : List Nat) (acc : Nat) :
    l.foldl min acc ≤ acc ∧ ∀ c ∈ l, l.foldl min acc ≤ c := by
  induction l generalizing acc with
  | nil => simp
  | cons c l' ih =>
      obtain ⟨h1, h2⟩ := ih (min acc c)
      simp only [List.foldl_cons]
      refine ⟨le_trans h1 (Nat.min_le_left _ _), ?_⟩
      intro x hx
      rcases List.mem_cons.mp hx with h | h
      · subst h
        exact le_trans h1 (Nat.min_le_right _ _)
      · exact h2 x h

theorem foldl_min_mem (l : List Nat) (acc : Nat) :
    l.foldl min acc = acc ∨ l.foldl min acc ∈ l := by
  induction l generalizing acc with
  | nil => exact Or.inl rfl
  | cons c l' ih =>
      rcases ih (min acc c) with h | h
      · rcases Nat.le_total acc c with hc | hc
        · rw [List.foldl_cons, h, Nat.min_eq_left hc]
          exact Or.inl rfl
        · rw [List.foldl_cons, h, Nat.min_eq_right hc]
          exact Or.inr (List.mem_cons_self _ _)
      · exact Or.inr (List.mem_cons_of_mem _ (by rwa [List.foldl_cons]))

theorem foldl_min_mem_of_lt {l : List Nat} {acc : Nat}
    (hne : l ≠ []) (hlt : ∀ c ∈ l, c < acc) : l.foldl min acc ∈ l := by
  rcases foldl_min_mem l acc with h | h
  · match l, hne with
    | c :: l', _ =>
        have hc := hlt c (List.mem_cons_self _ _)
        have := (foldl_min_le (c :: l') acc).2 c (List.mem_cons_self _ _)
        omega
  · exact h

/-! ### Loop lemmas for `remove_liquidity` -/

theorem rlLoop_ok_length {toks : List AccountId} {rs mins out res : List Nat}
    {s t : Nat} (h : rlLoop toks rs mins s t = .ok (out, res)) :
    out.length = rs.length := by
  induction toks generalizing rs mins out res with
  | nil => simp only [rlLoop] at h; cases h; rfl
  | cons tok ts ih =>
      match rs with
      | [] => simp [rlLoop] at h
      | a :: as' =>
          simp only [rlLoop] at h
          by_cases ht : t = 0
          · simp [ht] at h
          · rw [if_neg ht] at h
            match mins with
            | [] => simp at h
            | m :: ms =>
                simp only [] at h
                by_cases hm : a * s / t < m
                · simp [hm] at h
                · rw [if_neg hm] at h
                  by_cases hu : a < a * s / t
                  · simp [hu] at h
                  · rw [if_neg hu] at h
                    rcases hrec : rlLoop ts as' ms s t with e | ⟨ra, rr⟩
                    · rw [hrec] at h; cases h
                    · rw [hrec] at h
                      cases h
                      simp [ih hrec]

theorem rlLoop_burn_all_ok {toks : List AccountId} {rs mins : List Nat}
    {t : Nat} (ht : 0 < t) (hlen : toks.length = rs.length)
    (hml : toks.length ≤ mins.length)
    (hmin : ∀ i, i < toks.length → mins.getD i 0 ≤ rs.getD i 0) :
    rlLoop toks rs mins t t = .ok (List.replicate rs.length 0, rs) := by
  induction toks generalizing rs mins with
  | nil =>
      match rs with
      | [] => rfl
      | r :: rs' => simp at hlen
  | cons tok ts ih =>
      match rs with
      | [] => simp at hlen
      | a :: as' =>
          match mins with
          | [] => simp at hml
          | m :: ms =>
              have hamt : a * t / t = a := Nat.mul_div_cancel a ht
              have hm : m ≤ a := by
                have := hmin 0 (by simp)
                simpa using this
              have hrec := ih (by simpa using hlen) (by simpa using hml)
                (fun i hi => by simpa using hmin (i + 1) (by simpa using hi))
              simp only [rlLoop, if_neg (Nat.pos_iff_ne_zero.mp ht), hamt,
                if_neg (not_lt.mpr hm), if_neg (lt_irrefl a), hrec]
              simp [List.replicate_succ]

theorem rlLoop_burn_all_inv {toks : List AccountId} {rs mins out res : List Nat}
    {t : Nat} (ht : 0 < t) (hlen : toks.length = rs.length)
    (h : rlLoop toks rs mins t t = .ok (out, res)) :
    out = List.replicate rs.length 0 ∧ res = rs := by
  induction toks generalizing rs mins out res with
  | nil =>
      match rs with
      | [] => simp only [rlLoop] at h; cases h; exact ⟨rfl, rfl⟩
      | r :: rs' => simp at hlen
  | cons tok ts ih =>
      match rs with
      | [] => simp at hlen
      | a :: as' =>
          simp only [rlLoop, if_neg (Nat.pos_iff_ne_zero.mp ht)] at h
          match mins with
          | [] => simp at h
          | m :: ms =>
              simp only [] at h
              have hamt : a * t / t = a := Nat.mul_div_cancel a ht
              rw [hamt] at h
              by_cases hm : a < m
              · simp [hm] at h
              · rw [if_neg hm, if_neg (lt_irrefl a)] at h
                rcases hrec : rlLoop ts as' ms t t with e | ⟨ra, rr⟩
                · rw [hrec] at h; cases h
                · rw [hrec] at h
                  cases h
                  obtain ⟨h1, h2⟩ := ih (by simpa using hlen) hrec
                  subst h1; subst h2
                  simp [List.replicate_succ]

/-! ### Quote and swap arithmetic lemmas -/

theorem get_return_idx_ok_iff {p : Pool} {i o : Nat} {ain out : Nat} :
    p.get_return_idx i ain o = .ok out ↔
      ∃ ri ro, p.amounts.get? i = some ri ∧ p.amounts.get? o = some ro ∧
        0 < ri ∧ 0 < ro ∧ i ≠ o ∧ 0 < ain ∧ p.fee ≤ FEE_DIVISOR ∧
        ain * (FEE_DIVISOR - p.fee) * ro < 2 ^ 256 ∧
        out = ain * (FEE_DIVISOR - p.fee) * ro /
          (FEE_DIVISOR * ri + ain * (FEE_DIVISOR - p.fee)) := by
  constructor
  · intro h
    rw [Pool.get_return_idx] at h
    rcases hgi : p.amounts.get? i with _ | ri
    · rw [hgi] at h; cases h
    · rw [hgi] at h
      rcases hgo : p.amounts.get? o with _ | ro
      · rw [hgo] at h; cases h
      · rw [hgo] at h
        simp only [] at h
        by_cases hc : 0 < ri ∧ 0 < ro ∧ i ≠ o ∧ 0 < ain
        · rw [if_pos hc] at h
          by_cases hf : FEE_DIVISOR < p.fee
          · rw [if_pos hf] at h; cases h
          · rw [if_neg hf] at h
            by_cases hov : 2 ^ 256 ≤ ain * (FEE_DIVISOR - p.fee) * ro
            · rw [if_pos hov] at h; cases h
            · rw [if_neg hov] at h
              cases h
              exact ⟨ri, ro, rfl, rfl, hc.1, hc.2.1, hc.2.2.1, hc.2.2.2,
                not_lt.mp hf, not_le.mp hov, rfl⟩
        · rw [if_neg hc] at h; cases h
  · rintro ⟨ri, ro, hgi, hgo, hri, hro, hio, hain, hfee, hov, hout⟩
    rw [Pool.get_return_idx, hgi, hgo]
    simp only []
    rw [if_pos ⟨hri, hro, hio, hain⟩, if_neg (not_lt.mpr hfee),
      if_neg (not_le.mpr hov), hout]

theorem quote_lt_out_balance {ri ro ain fee : Nat} (hri : 0 < ri) (hro : 0 < ro) :
    ain * (FEE_DIVISOR - fee) * ro /
      (FEE_DIVISOR * ri + ain * (FEE_DIVISOR - fee)) < ro := by
  have hK : 0 < FEE_DIVISOR * ri :=
    Nat.mul_pos (by norm_num [FEE_DIVISOR]) hri
  have hD : 0 < FEE_DIVISOR * ri + ain * (FEE_DIVISOR - fee) := by omega
  rw [Nat.div_lt_iff_lt_mul hD]
  have ha : ain * (FEE_DIVISOR - fee) < FEE_DIVISOR * ri + ain * (FEE_DIVISOR - fee) := by
    omega
  calc ain * (FEE_DIVISOR - fee) * ro
      < (FEE_DIVISOR * ri + ain * (FEE_DIVISOR - fee)) * ro :=
        mul_lt_mul_of_pos_right ha hro
    _ = ro * (FEE_DIVISOR * ri + ain * (FEE_DIVISOR - fee)) := Nat.mul_comm _ _

theorem swap_product_math {ri ro ain fee out : Nat} (hri : 0 < ri) (hro : 0 < ro)
    (hain : 0 < ain) (hfee : fee ≤ FEE_DIVISOR)
    (hout : out = ain * (FEE_DIVISOR - fee) * ro /
      (FEE_DIVISOR * ri + ain * (FEE_DIVISOR - fee))) :
    ri * ro ≤ (ri + ain) * (ro - out) ∧
      (0 < fee → ri * ro < (ri + ain) * (ro - out)) := by
  have hlt : out < ro := by rw [hout]; exact quote_lt_out_balance hri hro
  set g := FEE_DIVISOR - fee with hg
  have hKpos : 0 < FEE_DIVISOR * ri :=
    Nat.mul_pos (by norm_num [FEE_DIVISOR]) hri
  have hDpos : 0 < FEE_DIVISOR * ri + ain * g := by omega
  have h1 : out * (FEE_DIVISOR * ri + ain * g) ≤ ain * g * ro := by
    rw [hout]; exact Nat.div_mul_le_self _ _
  have hale : ain * g ≤ FEE_DIVISOR * ain := by
    have hgle : g ≤ FEE_DIVISOR := by rw [hg]; exact Nat.sub_le _ _
    calc ain * g ≤ ain * FEE_DIVISOR := Nat.mul_le_mul_left ain hgle
      _ = FEE_DIVISOR * ain := Nat.mul_comm _ _
  constructor
  · have key : ri * ro * (FEE_DIVISOR * ri + ain * g) ≤
        (ri + ain) * (ro - out) * (FEE_DIVISOR * ri + ain * g) := by
      zify [le_of_lt hlt] at h1 hale ⊢
      nlinarith [mul_le_mul_of_nonneg_left h1
          (show (0 : ℤ) ≤ (ri : ℤ) + ain by positivity),
        mul_le_mul_of_nonneg_left hale
          (show (0 : ℤ) ≤ (ri : ℤ) * ro by positivity)]
    exact Nat.le_of_mul_le_mul_right key hDpos
  · intro hfpos
    have halt : ain * g < FEE_DIVISOR * ain := by
      have hglt : g < FEE_DIVISOR := by
        have hFpos : 0 < FEE_DIVISOR := by norm_num [FEE_DIVISOR]
        omega
      calc ain * g < ain * FEE_DIVISOR := mul_lt_mul_of_pos_left hglt hain
        _ = FEE_DIVISOR * ain := Nat.mul_comm _ _
    have key : ri * ro * (FEE_DIVISOR * ri + ain * g) <
        (ri + ain) * (ro - out) * (FEE_DIVISOR * ri + ain * g) := by
      zify [le_of_lt hlt] at h1 halt ⊢
      nlinarith [mul_le_mul_of_nonneg_left h1
          (show (0 : ℤ) ≤ (ri : ℤ) + ain by positivity),
        mul_lt_mul_of_pos_left halt
          (show (0 : ℤ) < (ri : ℤ) * ro by positivity)]
    exact Nat.lt_of_mul_lt_mul_right key

/-! ### Reachable-state invariants -/

theorem snd_le_sharesSum {kv : AccountId × Nat}
    {m : List (AccountId × Nat)} (h : kv ∈ m) : kv.2 ≤ sharesSum m :=
  List.single_le_sum (fun x _ => Nat.zero_le x) _ (List.mem_map_of_mem Prod.snd h)

theorem rlLoop_total_zero {toks : List AccountId} {rs mins out res : List Nat}
    {s : Nat} (h : rlLoop toks rs mins s 0 = .ok (out, res)) :
    toks = [] ∧ out = rs := by
  match toks with
  | [] =>
      simp only [rlLoop] at h
      cases h
      exact ⟨rfl, rfl⟩
  | tok :: ts =>
      match rs with
      | [] => simp [rlLoop] at h
      | a :: as' => simp [rlLoop] at h

/-- The three data-model invariants of reachable pool states:
the share total equals the sum of the shares map, the reserve list has the
tokens' length, and a zero share total forces all reserves (and all residual
share balances) to be zero. -/
theorem reachable_inv {p : Pool} (h : Reachable p) :
    p.shares_total_supply = sharesSum p.shares ∧
    p.amounts.length = p.token_account_ids.length ∧
    (p.shares_total_supply = 0 →
      (∀ a ∈ p.amounts, a = 0) ∧ ∀ kv ∈ p.shares, kv.2 = 0) := by
  induction h with
  | new toks fee p hnew =>
      rw [Pool.new] at hnew
      split at hnew
      · cases hnew
      · split at hnew
        · cases hnew
        · cases hnew
          refine ⟨rfl, by simp, fun _ => ⟨fun a ha => ?_, by simp⟩⟩
          exact List.eq_of_mem_replicate ha
  | add p s amts p' n hp hadd ih =>
      obtain ⟨ih1, ih2, ih3⟩ := ih
      rw [Pool.add_liquidity] at hadd
      by_cases hwc : amts.length ≠ p.token_account_ids.length
      · rw [if_pos hwc] at hadd; cases hadd
      · rw [if_neg hwc] at hadd
        by_cases hts : 0 < p.shares_total_supply
        · rw [if_pos hts] at hadd
          rcases hf : alFairLoop amts p.amounts p.shares_total_supply U256_MAX
            with e | fair
          · rw [hf] at hadd; cases hadd
          · rw [hf] at hadd
            simp only [] at hadd
            rcases ha : alAddLoop amts p.amounts fair p.shares_total_supply
              with e | na
            · rw [ha] at hadd; cases hadd
            · rw [ha] at hadd
              simp only [] at hadd
              by_cases hov : 2 ^ 128 ≤ fair
              · rw [if_pos hov] at hadd; cases hadd
              · rw [if_neg hov] at hadd
                by_cases htov : 2 ^ 128 ≤ p.shares_total_supply + fair
                · rw [if_pos htov] at hadd; cases hadd
                · rw [if_neg htov] at hadd
                  by_cases hpov : 2 ^ 128 ≤ (lmGet p.shares s).getD 0 + fair
                  · rw [if_pos hpov] at hadd; cases hadd
                  · rw [if_neg hpov] at hadd
                    cases hadd
                    refine ⟨?_, ?_, fun h0 => absurd h0 (by simp; omega)⟩
                    · simp only [sharesSum_add_to_collection]
                      omega
                    · simpa [alAddLoop_ok_length ha] using ih2
        · rw [if_neg hts] at hadd
          rcases hb : alBootLoop amts p.amounts with e | na
          · rw [hb] at hadd; cases hadd
          · rw [hb] at hadd
            simp only [] at hadd
            by_cases htov : 2 ^ 128 ≤ p.shares_total_supply + INIT_SHARES_SUPPLY
            · rw [if_pos htov] at hadd; cases hadd
            · rw [if_neg htov] at hadd
              by_cases hpov : 2 ^ 128 ≤ (lmGet p.shares s).getD 0 +
                  INIT_SHARES_SUPPLY
              · rw [if_pos hpov] at hadd; cases hadd
              · rw [if_neg hpov] at hadd
                cases hadd
                refine ⟨?_, ?_,
                  fun h0 => absurd h0 (by simp [INIT_SHARES_SUPPLY])⟩
                · simp only [sharesSum_add_to_collection]
                  omega
                · simpa [alBootLoop_ok_length hb] using ih2
  | remove p s sh mins p' outs hp hrem ih =>
      obtain ⟨ih1, ih2, ih3⟩ := ih
      rw [Pool.remove_liquidity] at hrem
      rcases hgp : lmGet p.shares s with _ | prev
      · rw [hgp] at hrem; cases hrem
      · rw [hgp] at hrem
        simp only [] at hrem
        by_cases hns : prev < sh
        · rw [if_pos hns] at hrem; cases hrem
        · rw [if_neg hns] at hrem
          rcases hloop : rlLoop p.token_account_ids p.amounts mins sh
            p.shares_total_supply with e | ⟨na, res⟩
          · rw [hloop] at hrem; cases hrem
          · rw [hloop] at hrem
            simp only [] at hrem
            by_cases hus : p.shares_total_supply < sh
            · rw [if_pos hus] at hrem; cases hrem
            · rw [if_neg hus] at hrem
              cases hrem
              have hprev_le : prev ≤ sharesSum p.shares := by
                have := lmGet_getD_le_sharesSum p.shares s
                rw [hgp] at this
                simpa using this
              have hsum_rem : sharesSum p.shares =
                  sharesSum (lmRemove p.shares s) + prev := by
                have := sharesSum_eq_remove_add p.shares s
                rw [hgp] at this
                simpa using this
              refine ⟨?_, ?_, ?_⟩
              · by_cases hps : prev = sh
                · simp only [if_pos hps]
                  omega
                · simp only [if_neg hps, sharesSum_insert]
                  omega
              · simpa [rlLoop_ok_length hloop] using ih2
              · intro h0
                simp only [] at h0
                have hsh_tot : sh = p.shares_total_supply := by omega
                by_cases htz : p.shares_total_supply = 0
                · obtain ⟨hzero, hkv⟩ := ih3 htz
                  have hsz : sh = 0 := by omega
                  obtain ⟨htoks, hout⟩ := rlLoop_total_zero (htz ▸ hloop)
                  subst hout
                  have hprev0 : prev = 0 := by omega
                  refine ⟨hzero, ?_⟩
                  have hps : prev = sh := by omega
                  simp only [if_pos hps]
                  intro kv hkv'
                  exact hkv kv (mem_of_mem_lmRemove hkv')
                · have htpos : 0 < p.shares_total_supply :=
                    Nat.pos_of_ne_zero htz
                  obtain ⟨hna, hres⟩ := rlLoop_burn_all_inv htpos
                    ih2.symm (hsh_tot ▸ hloop)
                  subst hna
                  have hps : prev = sh := by omega
                  refine ⟨fun a ha => List.eq_of_mem_replicate ha, ?_⟩
                  simp only [if_pos hps]
                  intro kv hkv'
                  have h2 : sharesSum (lmRemove p.shares s) = 0 := by omega
                  have := snd_le_sharesSum hkv'
                  omega
  | swap p sender tin ain tout mo p' out hp hsw ih =>
      obtain ⟨ih1, ih2, ih3⟩ := ih
      rw [Pool.swap] at hsw
      rcases hti : p.token_index tin with e | i
      · rw [hti] at hsw; cases hsw
      · rw [hti] at hsw
        rcases hto : p.token_index tout with e | o
        · rw [hto] at hsw; cases hsw
        · rw [hto] at hsw
          simp only [] at hsw
          rcases hg : p.get_return_idx i ain o with e | aout
          · rw [hg] at hsw; cases hsw
          · rw [hg] at hsw
            simp only [] at hsw
            by_cases hmo : aout < mo
            · rw [if_pos hmo] at hsw; cases hsw
            · rw [if_neg hmo] at hsw
              by_cases hao : 2 ^ 128 ≤ p.amounts.getD i 0 + ain
              · rw [if_pos hao] at hsw; cases hsw
              · rw [if_neg hao] at hsw
                by_cases hu : (p.amounts.set i
                    (p.amounts.getD i 0 + ain)).getD o 0 < aout
                · rw [if_pos hu] at hsw; cases hsw
                · rw [if_neg hu] at hsw
                  cases hsw
                  refine ⟨ih1, by simpa [List.length_set] using ih2, ?_⟩
                  intro h0
                  obtain ⟨ri, ro, hgi, hgo, hri, -⟩ :=
                    get_return_idx_ok_iff.mp hg
                  have : ri = 0 := (ih3 h0).1 ri (List.get?_mem hgi)
                  omega

/-! ### Claim theorems -/

/-- Claim C6 (confirmed): in every reachable pool state, `shares_total_supply`
equals the sum of all balances stored in the shares map; since reachability is
closed under `add_liquidity`, `remove_liquidity` and `swap` (and `get_return`
does not touch state), every operation preserves the equality. -/
theorem c6_total_shares_eq_sum {p : Pool} (h : Reachable p) :
    p.shares_total_supply = sharesSum p.shares :=
  (reachable_inv h).1

theorem c6_total_shares_eq_sum_witness :
    (Pool.mk ["a", "b"] [0, 0] 3 [] 0).shares_total_supply =
      sharesSum (Pool.mk ["a", "b"] [0, 0] 3 [] 0).shares :=
  c6_total_shares_eq_sum (Reachable.new ["a", "b"] 3 _ rfl)

/-- Claim C2 counterexample: the reachable state obtained by bootstrapping an
empty pool with all-zero amounts has `shares_total_supply = 10^21 ≠ 0` while
every reserve is zero, so `total_shares == 0 ⇔ reserves all zero` fails on
reachable states. -/
theorem c2_counterexample :
    Reachable (Pool.mk ["a", "b"] [0, 0] 3 [("lp", INIT_SHARES_SUPPLY)]
      INIT_SHARES_SUPPLY) ∧
    (Pool.mk ["a", "b"] [0, 0] 3 [("lp", INIT_SHARES_SUPPLY)]
      INIT_SHARES_SUPPLY).shares_total_supply ≠ 0 ∧
    (Pool.mk ["a", "b"] [0, 0] 3 [("lp", INIT_SHARES_SUPPLY)]
      INIT_SHARES_SUPPLY).amounts = [0, 0] :=
  ⟨Reachable.add (Pool.mk ["a", "b"] [0, 0] 3 [] 0) "lp" [0, 0] _ _
      (Reachable.new ["a", "b"] 3 _ rfl) rfl,
   by norm_num [INIT_SHARES_SUPPLY], rfl⟩

/-- Claim C2 (corrected): of the claimed three-way equivalence only these
directions hold on reachable states: `shares_total_supply` always equals the
sum of the share balances (so an empty map forces a zero total), and a zero
total forces every reserve and every residual share balance to be zero.  The
converses fail: a bootstrap with all-zero amounts reaches a state with positive
total shares and all-zero reserves, and a proportional add of dust amounts can
leave a zero-valued share entry, so all-zero balances do not make the map
empty. -/
theorem c2_amended {p : Pool} (h : Reachable p) :
    p.shares_total_supply = sharesSum p.shares ∧
    (p.shares_total_supply = 0 →
      (∀ a ∈ p.amounts, a = 0) ∧ ∀ kv ∈ p.shares, kv.2 = 0) :=
  ⟨(reachable_inv h).1, (reachable_inv h).2.2⟩

theorem c2_amended_witness :
    (Pool.mk ["x", "y"] [0, 0] 5 [] 0).shares_total_supply =
      sharesSum (Pool.mk ["x", "y"] [0, 0] 5 [] 0).shares :=
  (c2_amended (Reachable.new ["x", "y"] 5 _ rfl)).1

/-- Claim C7 (confirmed): on a reachable pool with `shares_total_supply = 0`
(whose reserves are then all zero), `add_liquidity` with a correct-length
amount vector stores every `amounts[i]` as the new reserve as-is and mints
exactly `10^21` shares to the provider. -/
theorem c7_bootstrap (p : Pool) (s : AccountId) (amounts : List Nat)
    (hr : Reachable p) (h0 : p.shares_total_supply = 0)
    (hlen : amounts.length = p.token_account_ids.length) :
    Pool.add_liquidity p s amounts =
      .ok ({ p with
              amounts := amounts
              shares := add_to_collection p.shares s (10 ^ 21)
              shares_total_supply := 10 ^ 21 }, 10 ^ 21) := by
  have hIS : INIT_SHARES_SUPPLY = 10 ^ 21 := by norm_num [INIT_SHARES_SUPPLY]
  obtain ⟨ih1, hlen2, hz⟩ := reachable_inv hr
  obtain ⟨hzero, -⟩ := hz h0
  have hprev : (lmGet p.shares s).getD 0 = 0 := by
    have := lmGet_getD_le_sharesSum p.shares s
    omega
  rw [Pool.add_liquidity, if_neg (by omega), if_neg (by omega),
    alBootLoop_zeros (by omega) hzero]
  simp only []
  rw [if_neg (by rw [h0]; norm_num [INIT_SHARES_SUPPLY]),
    if_neg (by rw [hprev]; norm_num [INIT_SHARES_SUPPLY])]
  simp [h0, hIS]

theorem c7_bootstrap_witness :
    Pool.add_liquidity (Pool.mk ["a", "b"] [0, 0] 3 [] 0) "lp"
        [5 * 10 ^ 24, 10 * 10 ^ 24] =
      .ok (Pool.mk ["a", "b"] [5 * 10 ^ 24, 10 * 10 ^ 24] 3
        [("lp", 10 ^ 21)] (10 ^ 21), 10 ^ 21) := by
  have h := c7_bootstrap (Pool.mk ["a", "b"] [0, 0] 3 [] 0) "lp"
    [5 * 10 ^ 24, 10 * 10 ^ 24] (Reachable.new ["a", "b"] 3 _ rfl) rfl rfl
  exact h

/-- Claim C8 (confirmed): when a single provider holds the entire (positive)
share supply, burning all of it with satisfiable minimum amounts returns
exactly the current reserves, zeroes every reserve, zeroes
`shares_total_supply`, and removes the provider's entry, leaving the shares
map empty.  (The reserve list has the tokens' length in every real pool;
this is the `reachable_inv` length invariant, taken here as a hypothesis.) -/
theorem c8_remove_all (p : Pool) (prov : AccountId) (mins : List Nat)
    (hsh : p.shares = [(prov, p.shares_total_supply)])
    (hT : 0 < p.shares_total_supply)
    (hlen : p.amounts.length = p.token_account_ids.length)
    (hml : p.token_account_ids.length ≤ mins.length)
    (hmin : ∀ i, i < p.token_account_ids.length →
      mins.getD i 0 ≤ p.amounts.getD i 0) :
    Pool.remove_liquidity p prov p.shares_total_supply mins =
      .ok ({ p with
              amounts := List.replicate p.amounts.length 0
              shares := []
              shares_total_supply := 0 }, p.amounts) := by
  have hget : lmGet [(prov, p.shares_total_supply)] prov =
      some p.shares_total_supply := by simp [lmGet]
  rw [Pool.remove_liquidity, hsh, hget]
  simp only []
  rw [if_neg (lt_irrefl _), rlLoop_burn_all_ok hT hlen.symm hml hmin]
  simp only []
  rw [if_neg (lt_irrefl _)]
  simp [lmRemove]

theorem c8_remove_all_witness :
    Pool.remove_liquidity (Pool.mk ["a", "b"] [5, 10] 3 [("u", 7)] 7) "u" 7
        [1, 1] =
      .ok (Pool.mk ["a", "b"] [0, 0] 3 [] 0, [5, 10]) := by
  have h := c8_remove_all (Pool.mk ["a", "b"] [5, 10] 3 [("u", 7)] 7) "u"
    [1, 1] rfl (by norm_num) rfl (by norm_num) (by decide)
  exact h

theorem rlLoopTrace_err_shape {toks : List AccountId} {rs mins : List Nat}
    {s t : Nat} {e : PoolError}
    (h : (rlLoopTrace toks rs mins s t).1 = some e) :
    e ≠ PoolError.errNoShares ∧ e ≠ PoolError.errNotEnoughShares := by
  induction toks generalizing rs mins with
  | nil => simp [rlLoopTrace] at h
  | cons tok ts ih =>
      match rs with
      | [] =>
          simp only [rlLoopTrace] at h
          cases h
          exact ⟨by simp, by simp⟩
      | a :: as' =>
          simp only [rlLoopTrace] at h
          by_cases ht : t = 0
          · rw [if_pos ht] at h
            cases h
            exact ⟨by simp, by simp⟩
          · rw [if_neg ht] at h
            match mins with
            | [] =>
                simp only [] at h
                cases h
                exact ⟨by simp, by simp⟩
            | m :: ms =>
                simp only [] at h
                by_cases hm : a * s / t < m
                · rw [if_pos hm] at h
                  cases h
                  exact ⟨by simp, by simp⟩
                · rw [if_neg hm] at h
                  by_cases hu : a < a * s / t
                  · rw [if_pos hu] at h
                    cases h
                    exact ⟨by simp, by simp⟩
                  · rw [if_neg hu] at h
                    exact ih (by simpa using h)

/-- Claim C1 counterexample: on the pool with reserves `[100, 100]` and a
provider `"u"` holding all 10 shares, `remove_liquidity("u", 10, [0, 1000])`
panics with `ERR_MIN_AMOUNT` at token index 1, but at the moment the panic
fires the reserve of token 0 has already been decremented to 0 in the struct —
the min-amount check does not happen before all state mutation. -/
theorem c1_counterexample :
    (removeLiquidityTrace (Pool.mk ["a", "b"] [100, 100] 3 [("u", 10)] 10)
      "u" 10 [0, 1000]).1 = some PoolError.errMinAmount ∧
    ((removeLiquidityTrace (Pool.mk ["a", "b"] [100, 100] 3 [("u", 10)] 10)
      "u" 10 [0, 1000]).2).amounts = [0, 100] ∧
    (Pool.mk ["a", "b"] [100, 100] 3 [("u", 10)] 10).amounts = [100, 100] :=
  ⟨rfl, rfl, rfl⟩

/-- Claim C1 (corrected): for a failing `remove_liquidity`, at the moment the
panic fires `shares_total_supply` is always still unchanged; the shares map is
unchanged except when the failure is the final total-supply underflow (which
requires burning more than the total supply, impossible in states satisfying
the share-sum invariant); and a failure of the no-shares or
insufficient-shares checks leaves the whole struct unchanged.  A min-amount
(or division/index) failure at token index `i`, however, occurs after the
reserves of tokens `0..i-1` were already decremented in the struct, so the
claimed "check happens before any state mutation" holds only because the
host aborts the transaction and discards the partial mutation. -/
theorem c1_amended (p : Pool) (s : AccountId) (sh : Nat) (mins : List Nat)
    (e : PoolError) (p' : Pool)
    (h : removeLiquidityTrace p s sh mins = (some e, p')) :
    p'.shares_total_supply = p.shares_total_supply ∧
    (e ≠ PoolError.errSubUnderflow → p'.shares = p.shares) ∧
    ((e = PoolError.errNoShares ∨ e = PoolError.errNotEnoughShares) →
      p' = p) := by
  rw [removeLiquidityTrace] at h
  rcases hgp : lmGet p.shares s with _ | prev
  · rw [hgp] at h
    cases h
    exact ⟨rfl, fun _ => rfl, fun _ => rfl⟩
  · rw [hgp] at h
    simp only [] at h
    by_cases hns : prev < sh
    · rw [if_pos hns] at h
      cases h
      exact ⟨rfl, fun _ => rfl, fun _ => rfl⟩
    · rw [if_neg hns] at h
      rcases hlt : rlLoopTrace p.token_account_ids p.amounts mins sh
        p.shares_total_supply with ⟨oe, na, res⟩
      rw [hlt] at h
      match oe with
      | some e0 =>
          simp only [] at h
          cases h
          have hshape := rlLoopTrace_err_shape (by rw [hlt])
          exact ⟨rfl, fun _ => rfl,
            fun hor => absurd hor (by
              rcases hshape with ⟨h1, h2⟩
              simp [h1, h2])⟩
      | none =>
          simp only [] at h
          by_cases hus : p.shares_total_supply < sh
          · rw [if_pos hus] at h
            cases h
            exact ⟨rfl, fun hne => absurd rfl hne,
              fun hor => by rcases hor with h1 | h1 <;> cases h1⟩
          · rw [if_neg hus] at h
            cases h

theorem c1_amended_witness :
    (Pool.mk ["a", "b"] [0, 100] 3 [("u", 10)] 10).shares_total_supply =
      (Pool.mk ["a", "b"] [100, 100] 3 [("u", 10)] 10).shares_total_supply ∧
    (PoolError.errMinAmount ≠ PoolError.errSubUnderflow →
      (Pool.mk ["a", "b"] [0, 100] 3 [("u", 10)] 10).shares =
        (Pool.mk ["a", "b"] [100, 100] 3 [("u", 10)] 10).shares) ∧
    ((PoolError.errMinAmount = PoolError.errNoShares ∨
      PoolError.errMinAmount = PoolError.errNotEnoughShares) →
      Pool.mk ["a", "b"] [0, 100] 3 [("u", 10)] 10 =
        Pool.mk ["a", "b"] [100, 100] 3 [("u", 10)] 10) :=
  c1_amended (Pool.mk ["a", "b"] [100, 100] 3 [("u", 10)] 10) "u" 10 [0, 1000]
    PoolError.errMinAmount (Pool.mk ["a", "b"] [0, 100] 3 [("u", 10)] 10) rfl

/-- The per-token share-mint candidates `amounts[i] * total_shares /
reserves[i]` of the proportional regime, as named by the spec. -/
def fairSupplyCands (p : Pool) (amounts : List Nat) : List Nat :=
  List.zipWith (fun a r => a * p.shares_total_supply / r) amounts p.amounts

/-- The minted share count of the proportional regime: the minimum of the
candidates (computed, as in the source, as a fold seeded with `U256_MAX`). -/
def fairSupplySpec (p : Pool) (amounts : List Nat) : Nat :=
  (fairSupplyCands p amounts).foldl min U256_MAX

/-- Claim C4 counterexample: on a (reachable) pool with `total_shares = 10^21 >
0` and reserves `[0, 5]`, a positive, correct-length `add_liquidity` call does
not mint the claimed minimum-candidate share count — it fails outright with a
division-by-zero panic, because the claimed formula divides by the zero
reserve. -/
theorem c4_counterexample :
    Pool.add_liquidity (Pool.mk ["a", "b"] [0, 5] 3
      [("lp", INIT_SHARES_SUPPLY)] INIT_SHARES_SUPPLY) "v" [1, 1] =
      .error PoolError.errDivisionByZero := rfl

/-- Claim C4 (corrected): in the proportional regime (positive total shares,
at least one token, correct-length reserves and amounts, all amounts and all
reserves positive, every per-token candidate below `2^128` so the minted
count fits `u128`, and the updated per-token reserves, total share supply and
provider share balance all fitting `u128` so none of the checked `+=`
additions overflows), the minted share count `S` is the minimum over all
tokens of `amounts[i] * total_shares / reserves[i]`, and each reserve is
incremented by `reserves[i] * S / total_shares` rather than by
`amounts[i]`. -/
theorem c4_amended (p : Pool) (s : AccountId) (amounts : List Nat)
    (hts : 0 < p.shares_total_supply)
    (hne : p.token_account_ids ≠ [])
    (hlen : amounts.length = p.token_account_ids.length)
    (hrlen : p.amounts.length = p.token_account_ids.length)
    (hpos : ∀ a ∈ amounts, 0 < a)
    (hrpos : ∀ r ∈ p.amounts, 0 < r)
    (hfit : ∀ c ∈ fairSupplyCands p amounts, c < 2 ^ 128)
    (hafit : ∀ r ∈ p.amounts,
      r + r * fairSupplySpec p amounts / p.shares_total_supply < 2 ^ 128)
    (htfit : p.shares_total_supply + fairSupplySpec p amounts < 2 ^ 128)
    (hsfit : (lmGet p.shares s).getD 0 + fairSupplySpec p amounts < 2 ^ 128) :
    Pool.add_liquidity p s amounts =
      .ok ({ p with
              amounts := p.amounts.map (fun r =>
                r + r * fairSupplySpec p amounts / p.shares_total_supply)
              shares := add_to_collection p.shares s (fairSupplySpec p amounts)
              shares_total_supply :=
                p.shares_total_supply + fairSupplySpec p amounts },
           fairSupplySpec p amounts) ∧
    fairSupplySpec p amounts ∈ fairSupplyCands p amounts ∧
    ∀ c ∈ fairSupplyCands p amounts, fairSupplySpec p amounts ≤ c := by
  have hlen' : amounts.length = p.amounts.length := by omega
  have hcne : fairSupplyCands p amounts ≠ [] := by
    have h1 : (fairSupplyCands p amounts).length = amounts.length := by
      simp [fairSupplyCands, hlen']
    have h2 : 0 < p.token_account_ids.length := List.length_pos.mpr hne
    intro hc
    rw [hc] at h1
    simp at h1
    omega
  have hclt : ∀ c ∈ fairSupplyCands p amounts, c < U256_MAX := by
    intro c hc
    have h1 := hfit c hc
    have h2 : (2 : Nat) ^ 128 < U256_MAX := by norm_num [U256_MAX]
    omega
  have hmem : fairSupplySpec p amounts ∈ fairSupplyCands p amounts :=
    foldl_min_mem_of_lt hcne hclt
  have hle : ∀ c ∈ fairSupplyCands p amounts, fairSupplySpec p amounts ≤ c :=
    (foldl_min_le (fairSupplyCands p amounts) U256_MAX).2
  have hffit : fairSupplySpec p amounts < 2 ^ 128 := hfit _ hmem
  refine ⟨?_, hmem, hle⟩
  rw [Pool.add_liquidity, if_neg (by omega), if_pos hts,
    alFairLoop_fold U256_MAX hlen' hpos hrpos]
  simp only []
  have hfs : List.foldl min U256_MAX
      (List.zipWith (fun a r => a * p.shares_total_supply / r) amounts
        p.amounts) = fairSupplySpec p amounts := rfl
  rw [hfs, alAddLoop_map _ _ hlen' hafit]
  simp only []
  rw [if_neg (not_le.mpr hffit), if_neg (not_le.mpr htfit),
    if_neg (not_le.mpr hsfit)]

theorem c4_amended_witness :
    Pool.add_liquidity (Pool.mk ["a", "b"] [10, 20] 3 [("lp", 100)] 100)
        "v" [5, 5] =
      .ok (Pool.mk ["a", "b"] [12, 25] 3 [("lp", 100), ("v", 25)] 125, 25) := by
  have h := (c4_amended (Pool.mk ["a", "b"] [10, 20] 3 [("lp", 100)] 100)
    "v" [5, 5] (by norm_num) (by simp) rfl rfl (by decide) (by decide)
    (by decide) (by decide) (by decide) (by decide)).1
  exact h

theorem getD_of_get? {l : List Nat} {n v : Nat} (h : l.get? n = some v) :
    l.getD n 0 = v := by
  rw [List.getD_eq_get?, h]
  rfl

theorem swap_ok_inv {p : Pool} {sender tin tout : AccountId} {ain mo : Nat}
    {p' : Pool} {out : Nat}
    (h : Pool.swap p sender tin ain tout mo = .ok (p', out)) :
    ∃ i o, p.token_index tin = .ok i ∧ p.token_index tout = .ok o ∧
      p.get_return_idx i ain o = .ok out ∧ mo ≤ out ∧
      p' = { p with amounts :=
                      (p.amounts.set i (p.amounts.getD i 0 + ain)).set o
                        ((p.amounts.set i
                          (p.amounts.getD i 0 + ain)).getD o 0 - out) } := by
  rw [Pool.swap] at h
  rcases hti : p.token_index tin with e | i
  · rw [hti] at h; cases h
  · rw [hti] at h
    rcases hto : p.token_index tout with e | o
    · rw [hto] at h; cases h
    · rw [hto] at h
      simp only [] at h
      rcases hg : p.get_return_idx i ain o with e | aout
      · rw [hg] at h; cases h
      · rw [hg] at h
        simp only [] at h
        by_cases hmo : aout < mo
        · rw [if_pos hmo] at h; cases h
        · rw [if_neg hmo] at h
          by_cases hao : 2 ^ 128 ≤ p.amounts.getD i 0 + ain
          · rw [if_pos hao] at h; cases h
          · rw [if_neg hao] at h
            by_cases hu : (p.amounts.set i (p.amounts.getD i 0 + ain)).getD o 0
                < aout
            · rw [if_pos hu] at h; cases h
            · rw [if_neg hu] at h
              cases h
              exact ⟨i, o, rfl, rfl, hg, not_lt.mp hmo, rfl⟩

/-- Claim C3 counterexample: with tokens configured and distinct, both reserves
positive and `amount_in > 0` — a valid quote input in `u128` range — the quote
does not return the claimed floor value: the 256-bit numerator
`amount_in * (1000 - fee) * reserve_out` reaches `2^256`, the `U256`
multiplication overflows and the call panics. -/
theorem c3_counterexample :
    (0 : Nat) < 2 ^ 128 - 1 ∧
    Pool.get_return (Pool.mk ["a", "b"] [1, 2 ^ 128 - 1] 3 [] 0) "a"
      (2 ^ 128 - 1) "b" = .error PoolError.errArithOverflow :=
  ⟨by norm_num, rfl⟩

/-- Claim C3 (corrected): for every valid quote input (tokens configured and
distinct, positive amount and reserves, fee within bounds) whose 256-bit
numerator `amount_in * (1000 - fee) * reserve_out` stays below `2^256`, the
quote returns exactly
`floor(amount_in * (1000 - fee) * reserve_out / (1000 * reserve_in +
amount_in * (1000 - fee)))`, computed with exact (at least 256-bit) integer
arithmetic and floor division. -/
theorem c3_amended (p : Pool) (tin tout : AccountId) (ain i o ri ro : Nat)
    (hti : p.token_index tin = .ok i)
    (hto : p.token_index tout = .ok o)
    (hdif : tin ≠ tout)
    (hgi : p.amounts.get? i = some ri)
    (hgo : p.amounts.get? o = some ro)
    (hri : 0 < ri) (hro : 0 < ro) (hain : 0 < ain)
    (hfee : p.fee ≤ FEE_DIVISOR)
    (hov : ain * (FEE_DIVISOR - p.fee) * ro < 2 ^ 256) :
    Pool.get_return p tin ain tout =
      .ok (ain * (FEE_DIVISOR - p.fee) * ro /
        (FEE_DIVISOR * ri + ain * (FEE_DIVISOR - p.fee))) := by
  have hio : i ≠ o := fun hEq => hdif (token_index_inj (hEq ▸ hti) hto)
  rw [Pool.get_return, hti, hto]
  simp only []
  exact get_return_idx_ok_iff.mpr
    ⟨ri, ro, hgi, hgo, hri, hro, hio, hain, hfee, hov, rfl⟩

theorem c3_amended_witness :
    Pool.get_return (Pool.mk ["a", "b"] [5, 10] 3 [] 0) "a" 1 "b" =
      .ok (1 * (FEE_DIVISOR - 3) * 10 /
        (FEE_DIVISOR * 5 + 1 * (FEE_DIVISOR - 3))) := by
  have h := c3_amended (Pool.mk ["a", "b"] [5, 10] 3 [] 0) "a" "b" 1 0 1 5 10
    rfl rfl (by decide) rfl rfl (by norm_num) (by norm_num) (by norm_num)
    (by norm_num [FEE_DIVISOR]) (by norm_num [FEE_DIVISOR])
  exact h

/-- Claim C5 (confirmed): every successful swap weakly increases the product
of the two involved reserves, and strictly increases it whenever the fee is
positive; equality can thus occur only in the zero-fee case. -/
theorem c5_swap_product (p : Pool) (sender tin : AccountId) (ain : Nat)
    (tout : AccountId) (mo : Nat) (p' : Pool) (out i o : Nat)
    (hsw : Pool.swap p sender tin ain tout mo = .ok (p', out))
    (hti : p.token_index tin = .ok i)
    (hto : p.token_index tout = .ok o) :
    p.amounts.getD i 0 * p.amounts.getD o 0 ≤
      p'.amounts.getD i 0 * p'.amounts.getD o 0 ∧
    (0 < p.fee →
      p.amounts.getD i 0 * p.amounts.getD o 0 <
        p'.amounts.getD i 0 * p'.amounts.getD o 0) := by
  obtain ⟨i0, o0, hta, htb, hg, hmo, hp'⟩ := swap_ok_inv hsw
  rw [hta] at hti
  rw [htb] at hto
  cases hti
  cases hto
  obtain ⟨ri, ro, hgi, hgo, hri, hro, hio, hain, hfee, hov, hout⟩ :=
    get_return_idx_ok_iff.mp hg
  have hilt : i < p.amounts.length := (List.get?_eq_some.mp hgi).1
  have holt : o < p.amounts.length := (List.get?_eq_some.mp hgo).1
  have hdgi : p.amounts.getD i 0 = ri := getD_of_get? hgi
  have hdgo : p.amounts.getD o 0 = ro := getD_of_get? hgo
  have ha1o : (p.amounts.set i (p.amounts.getD i 0 + ain)).getD o 0 = ro :=
    getD_of_get? (by rw [List.get?_set_ne _ _ hio, hgo])
  have hp'i : p'.amounts.getD i 0 = ri + ain := by
    rw [hp']
    simp only []
    have h1 : ((p.amounts.set i (p.amounts.getD i 0 + ain)).set o
        ((p.amounts.set i (p.amounts.getD i 0 + ain)).getD o 0 - out)).get?
          i = some (ri + ain) := by
      rw [List.get?_set_ne _ _ (Ne.symm hio),
        List.get?_set_eq_of_lt _ hilt, hdgi]
    exact getD_of_get? h1
  have hp'o : p'.amounts.getD o 0 = ro - out := by
    rw [hp']
    simp only []
    have h2 : ((p.amounts.set i (p.amounts.getD i 0 + ain)).set o
        ((p.amounts.set i (p.amounts.getD i 0 + ain)).getD o 0 - out)).get?
          o = some (ro - out) := by
      rw [List.get?_set_eq_of_lt, ha1o]
      simpa [List.length_set] using holt
    exact getD_of_get? h2
  rw [hdgi, hdgo, hp'i, hp'o]
  exact swap_product_math hri hro hain hfee hout

theorem c5_swap_product_witness :
    (Pool.mk ["a", "b"] [5, 10] 3 [] 0).amounts.getD 0 0 *
        (Pool.mk ["a", "b"] [5, 10] 3 [] 0).amounts.getD 1 0 ≤
      (Pool.mk ["a", "b"] [6, 9] 3 [] 0).amounts.getD 0 0 *
        (Pool.mk ["a", "b"] [6, 9] 3 [] 0).amounts.getD 1 0 ∧
    (0 < (Pool.mk ["a", "b"] [5, 10] 3 [] 0).fee →
      (Pool.mk ["a", "b"] [5, 10] 3 [] 0).amounts.getD 0 0 *
          (Pool.mk ["a", "b"] [5, 10] 3 [] 0).amounts.getD 1 0 <
        (Pool.mk ["a", "b"] [6, 9] 3 [] 0).amounts.getD 0 0 *
          (Pool.mk ["a", "b"] [6, 9] 3 [] 0).amounts.getD 1 0) :=
  c5_swap_product (Pool.mk ["a", "b"] [5, 10] 3 [] 0) "u" "a" 1 "b" 1
    (Pool.mk ["a", "b"] [6, 9] 3 [] 0) 1 0 1 rfl rfl rfl

/-- Claim C10 (confirmed): for every swap input passing validation (both
token indices resolved and `get_return_idx` succeeding, which requires the
tokens configured and distinct, `amount_in > 0` and both reserves positive),
the computed `amount_out` is strictly below `reserves[token_out]`; as a
consequence `swap` can never fail with the out-reserve decrement underflow,
for any `min_amount_out`, and whenever it commits it leaves
`reserves[token_out]` strictly positive. -/
theorem c10_swap_out_bound (p : Pool) (sender tin tout : AccountId)
    (ain i o out : Nat)
    (hti : p.token_index tin = .ok i)
    (hto : p.token_index tout = .ok o)
    (hg : p.get_return_idx i ain o = .ok out) :
    out < p.amounts.getD o 0 ∧
    (∀ mo, Pool.swap p sender tin ain tout mo ≠
      .error PoolError.errSubUnderflow) ∧
    (∀ mo p' out', Pool.swap p sender tin ain tout mo = .ok (p', out') →
      out' = out ∧ 0 < p'.amounts.getD o 0) := by
  obtain ⟨ri, ro, hgi, hgo, hri, hro, hio, hain, hfee, hov, hout⟩ :=
    get_return_idx_ok_iff.mp hg
  have holt : o < p.amounts.length := (List.get?_eq_some.mp hgo).1
  have hdgo : p.amounts.getD o 0 = ro := getD_of_get? hgo
  have hlt : out < ro := by
    rw [hout]
    exact quote_lt_out_balance hri hro
  have ha1o : (p.amounts.set i (p.amounts.getD i 0 + ain)).getD o 0 = ro :=
    getD_of_get? (by rw [List.get?_set_ne _ _ hio, hgo])
  refine ⟨by rw [hdgo]; exact hlt, ?_, ?_⟩
  · intro mo
    rw [Pool.swap, hti, hto]
    simp only []
    rw [hg]
    simp only []
    by_cases hmo : out < mo
    · rw [if_pos hmo]
      simp
    · rw [if_neg hmo]
      by_cases hao : 2 ^ 128 ≤ p.amounts.getD i 0 + ain
      · rw [if_pos hao]
        simp
      · rw [if_neg hao, if_neg (by rw [ha1o]; omega)]
        simp
  · intro mo p' out' hsw
    rw [Pool.swap, hti, hto] at hsw
    simp only [] at hsw
    rw [hg] at hsw
    simp only [] at hsw
    by_cases hmo : out < mo
    · rw [if_pos hmo] at hsw
      cases hsw
    · rw [if_neg hmo] at hsw
      by_cases hao : 2 ^ 128 ≤ p.amounts.getD i 0 + ain
      · rw [if_pos hao] at hsw
        cases hsw
      · rw [if_neg hao, if_neg (by rw [ha1o]; omega)] at hsw
        cases hsw
        refine ⟨rfl, ?_⟩
        have h2 : ((p.amounts.set i (p.amounts.getD i 0 + ain)).set o
            ((p.amounts.set i (p.amounts.getD i 0 + ain)).getD o 0 - out)).get?
              o = some (ro - out) := by
          rw [List.get?_set_eq_of_lt, ha1o]
          simpa [List.length_set] using holt
        have h3 := getD_of_get? h2
        simp only []
        rw [h3]
        omega

theorem c10_swap_out_bound_witness :
    (1 : Nat) < (Pool.mk ["a", "b"] [5, 10] 3 [] 0).amounts.getD 1 0 ∧
    0 < (Pool.mk ["a", "b"] [6, 9] 3 [] 0).amounts.getD 1 0 :=
  ⟨(c10_swap_out_bound (Pool.mk ["a", "b"] [5, 10] 3 [] 0) "u" "a" "b" 1 0 1 1
      rfl rfl rfl).1,
   ((c10_swap_out_bound (Pool.mk ["a", "b"] [5, 10] 3 [] 0) "u" "a" "b" 1 0 1 1
      rfl rfl rfl).2.2 1 (Pool.mk ["a", "b"] [6, 9] 3 [] 0) 1 rfl).2⟩

/-- Claim C9 counterexample: `quote` with `token_in == token_out` and `quote`
with `amount_in == 0` fail with the same error `ERR_INVALID` (as does `swap`
with `amount_in == 0`), so the failure causes beyond the unknown-token check
are not signalled by distinguished errors — there is no separate
`InvalidPair`/`ZeroAmount`/`EmptyReserve` distinction in the code. -/
theorem c9_counterexample :
    Pool.get_return (Pool.mk ["a", "b"] [5, 10] 3 [] 0) "a" 5 "a" =
      .error PoolError.errInvalid ∧
    Pool.get_return (Pool.mk ["a", "b"] [5, 10] 3 [] 0) "a" 0 "b" =
      .error PoolError.errInvalid ∧
    Pool.swap (Pool.mk ["a", "b"] [5, 10] 3 [] 0) "u" "a" 0 "b" 0 =
      .error PoolError.errInvalid :=
  ⟨rfl, rfl, rfl⟩

/-- Claim C9 (corrected): `quote` is pure (it returns a value without any
state) and fails exactly in the claimed cases, but with only two distinguished
errors: `ERR_MISSING_TOKEN` exactly when a token identifier is not configured,
and a single shared `ERR_INVALID` exactly when both tokens are configured and
`token_in == token_out`, or `amount_in == 0`, or an involved reserve is zero;
`swap` with `amount_in == 0` on configured tokens fails with that same
`ERR_INVALID` (not a dedicated zero-amount error) and commits no state.
(The reserve list has the tokens' length in every real pool, taken here as
a hypothesis.) -/
theorem c9_amended (p : Pool) (tin : AccountId) (ain : Nat) (tout : AccountId)
    (hlen : p.amounts.length = p.token_account_ids.length) :
    (Pool.get_return p tin ain tout = .error .errMissingToken ↔
      tin ∉ p.token_account_ids ∨ tout ∉ p.token_account_ids) ∧
    (Pool.get_return p tin ain tout = .error .errInvalid ↔
      (tin ∈ p.token_account_ids ∧ tout ∈ p.token_account_ids ∧
        (tin = tout ∨ ain = 0 ∨ reserve_of p tin = 0 ∨
          reserve_of p tout = 0))) ∧
    (∀ s mo, tin ∈ p.token_account_ids → tout ∈ p.token_account_ids →
      Pool.swap p s tin 0 tout mo = .error .errInvalid) := by
  by_cases htin : tin ∈ p.token_account_ids
  · obtain ⟨i, hti⟩ := token_index_ok_of_mem htin
    by_cases htout : tout ∈ p.token_account_ids
    · obtain ⟨o, hto⟩ := token_index_ok_of_mem htout
      have hil : i < p.amounts.length := hlen ▸ token_index_lt hti
      have hol : o < p.amounts.length := hlen ▸ token_index_lt hto
      have hgi : p.amounts.get? i = some (p.amounts.get ⟨i, hil⟩) :=
        List.get?_eq_get hil
      have hgo : p.amounts.get? o = some (p.amounts.get ⟨o, hol⟩) :=
        List.get?_eq_get hol
      set ri := p.amounts.get ⟨i, hil⟩ with hri_def
      set ro := p.amounts.get ⟨o, hol⟩ with hro_def
      have hres_in : reserve_of p tin = ri := by
        rw [reserve_of, hti]
        exact getD_of_get? hgi
      have hres_out : reserve_of p tout = ro := by
        rw [reserve_of, hto]
        exact getD_of_get? hgo
      have hgr : Pool.get_return p tin ain tout = p.get_return_idx i ain o := by
        rw [Pool.get_return, hti, hto]
      have hval_iff : (tin = tout ∨ ain = 0 ∨ reserve_of p tin = 0 ∨
          reserve_of p tout = 0) ↔ ¬(0 < ri ∧ 0 < ro ∧ i ≠ o ∧ 0 < ain) := by
        constructor
        · rintro (h | h | h | h) ⟨v1, v2, v3, v4⟩
          · rw [h] at hti
            exact v3 (Except.ok.inj (hti.symm.trans hto))
          · omega
          · rw [hres_in] at h
            omega
          · rw [hres_out] at h
            omega
        · intro hnv
          by_cases h1 : 0 < ri
          · by_cases h2 : 0 < ro
            · by_cases h3 : i = o
              · exact Or.inl (token_index_inj (h3 ▸ hti) hto)
              · have h4 : ¬0 < ain := by tauto
                exact Or.inr (Or.inl (by omega))
            · exact Or.inr (Or.inr (Or.inr (by rw [hres_out]; omega)))
          · exact Or.inr (Or.inr (Or.inl (by rw [hres_in]; omega)))
      have hcases : (p.get_return_idx i ain o = .error .errInvalid ∧
          ¬(0 < ri ∧ 0 < ro ∧ i ≠ o ∧ 0 < ain)) ∨
          ((0 < ri ∧ 0 < ro ∧ i ≠ o ∧ 0 < ain) ∧
            p.get_return_idx i ain o ≠ .error .errInvalid ∧
            p.get_return_idx i ain o ≠ .error .errMissingToken) := by
        rw [Pool.get_return_idx, hgi, hgo]
        simp only []
        by_cases hv : 0 < ri ∧ 0 < ro ∧ i ≠ o ∧ 0 < ain
        · rw [if_pos hv]
          refine Or.inr ⟨hv, ?_, ?_⟩ <;> (split_ifs <;> simp)
        · rw [if_neg hv]
          exact Or.inl ⟨rfl, hv⟩
      refine ⟨?_, ?_, ?_⟩
      · rcases hcases with ⟨he, hnv⟩ | ⟨hv, hne1, hne2⟩
        · rw [hgr, he]
          simp [htin, htout]
        · rw [hgr]
          simp [hne2, htin, htout]
      · rcases hcases with ⟨he, hnv⟩ | ⟨hv, hne1, hne2⟩
        · rw [hgr, he]
          simp only [true_iff, iff_true]
          exact ⟨htin, htout, hval_iff.mpr hnv⟩
        · rw [hgr]
          simp only [hne1, false_iff]
          rintro ⟨-, -, hd⟩
          exact (hval_iff.mp hd) hv
      · intro s mo htin2 htout2
        rw [Pool.swap, hti, hto]
        simp only []
        have hidx0 : p.get_return_idx i 0 o = .error .errInvalid := by
          rw [Pool.get_return_idx, hgi, hgo]
          simp only []
          rw [if_neg (by rintro ⟨-, -, -, h4⟩; omega)]
        rw [hidx0]
    · have hto_err : p.token_index tout = .error .errMissingToken :=
        token_index_error_of_not_mem htout
      have hgr_err : Pool.get_return p tin ain tout =
          .error .errMissingToken := by
        rw [Pool.get_return, hti]
        simp only []
        rw [hto_err]
      refine ⟨?_, ?_, ?_⟩
      · simp [hgr_err, htout]
      · simp [hgr_err, htout]
      · intro s mo htin2 htout2
        exact absurd htout2 htout
  · have hti_err : p.token_index tin = .error .errMissingToken :=
      token_index_error_of_not_mem htin
    have hgr_err : Pool.get_return p tin ain tout =
        .error .errMissingToken := by
      rw [Pool.get_return, hti_err]
    refine ⟨?_, ?_, ?_⟩
    · simp [hgr_err, htin]
    · simp [hgr_err, htin]
    · intro s mo htin2 htout2
      exact absurd htin2 htin

theorem c9_amended_witness :
    Pool.swap (Pool.mk ["a", "b"] [5, 10] 3 [] 0) "v" "a" 0 "b" 7 =
      .error PoolError.errInvalid :=
  (c9_amended (Pool.mk ["a", "b"] [5, 10] 3 [] 0) "a" 0 "b" rfl).2.2 "v" 7
    (by simp) (by simp)
